import Mathlib

/-!
Verification development for the Homography-and-Panorama program
(`ex1_student_solution.py`).

The Python code is shallowly embedded as follows.

* Pixel coordinates and image colors are embedded as rational numbers
  (`ℚ`); the program's float arithmetic is idealised as exact rational
  arithmetic.  `np.round` is round-half-to-even (`roundHE`), Python's
  `int(...)` cast truncates toward zero (`pyInt`).
* A 3x3 homography is a `Mat3` record of nine rationals; `applyH` is the
  matrix-vector product `H . [x, y, 1]` and `mapPoint` additionally
  performs the perspective divide by the third coordinate.
* `2xN` numpy point arrays are embedded as `List (ℚ × ℚ)` of columns.
* The comparison `np.linalg.norm(d - m) <= max_err` is embedded without
  a square root as `distLE`: for real numbers, `sqrt s ≤ t` holds iff
  `0 ≤ t ∧ s ≤ t ^ 2` (lemma `distLE_eq_true_iff_sqrt_le` below), so the
  Boolean decision procedure is extensionally the source's test.
* Calls into numpy/scipy that perform numeric linear algebra or
  scattered-data interpolation (`np.linalg.svd` inside
  `compute_homography_naive`, `scipy.interpolate.griddata`) cannot be
  reproduced exactly; they are passed in as function parameters, and
  `np.random.choice` is passed in as a stream of index samples, so every
  theorem quantifies over their possible outputs.
-/

/-! ## Basic numeric helpers -/

/-- Numpy `np.round`: round half to even (banker's rounding), on rationals. -/
def roundHE (q : ℚ) : ℤ :=
  let f : ℤ := ⌊q⌋
  let r : ℚ := q - f
  if r < 1/2 then f
  else if 1/2 < r then f + 1
  else if f % 2 = 0 then f else f + 1

/-- Python's `int(...)` cast on a float: truncation toward zero. -/
def pyInt (q : ℚ) : ℤ := if 0 ≤ q then ⌊q⌋ else -⌊-q⌋

/-- Numpy `np.clip(z, 0, 255)` on an integer. -/
def clip255 (z : ℤ) : ℤ := min 255 (max 0 z)

theorem pyInt_of_nonneg {q : ℚ} (h : 0 ≤ q) : pyInt q = ⌊q⌋ := by
  simp [pyInt, h]

theorem pyInt_nonneg {q : ℚ} (h : 0 ≤ q) : 0 ≤ pyInt q := by
  rw [pyInt_of_nonneg h]; exact Int.le_floor.mpr (by exact_mod_cast h)

/-! ## Data model: homographies, points, colors -/

/-- A 3x3 homography matrix (row-major entries). -/
structure Mat3 where
  m00 : ℚ
  m01 : ℚ
  m02 : ℚ
  m10 : ℚ
  m11 : ℚ
  m12 : ℚ
  m20 : ℚ
  m21 : ℚ
  m22 : ℚ
  deriving DecidableEq

/-- A homogeneous coordinate triple. -/
structure Vec3 where
  x : ℚ
  y : ℚ
  z : ℚ
  deriving DecidableEq

/-- An RGB color sample (one pixel of an image). -/
structure RGB where
  r : ℚ
  g : ℚ
  b : ℚ
  deriving DecidableEq

/-- The zero (black / unpainted) color. -/
def RGB.zero : RGB := ⟨0, 0, 0⟩

/-- The write `src_image[i, j, :] / 255.0`: normalisation of a color to `[0, 1]`. -/
def rgbDiv255 (p : RGB) : RGB := ⟨p.r / 255, p.g / 255, p.b / 255⟩

/-- The product `np.matmul(homography, [x, y, 1])`. -/
def applyH (H : Mat3) (px py : ℚ) : Vec3 :=
  ⟨H.m00 * px + H.m01 * py + H.m02,
   H.m10 * px + H.m11 * py + H.m12,
   H.m20 * px + H.m21 * py + H.m22⟩

/-- Forward-map a point through `H` with the perspective divide
(`src_mapping / src_mapping[2, :]`).  In ℚ, division by a zero third
component yields the junk value `0` (numpy would produce `inf`/`nan`
there; no theorem below depends on that degenerate case in a way that
distinguishes the two conventions, since both embedded functions that
share this code share the convention). -/
def mapPoint (H : Mat3) (p : ℚ × ℚ) : ℚ × ℚ :=
  let v := applyH H p.1 p.2
  (v.x / v.z, v.y / v.z)

/-- Squared Euclidean distance between two points. -/
def dist2 (a b : ℚ × ℚ) : ℚ := (a.1 - b.1) ^ 2 + (a.2 - b.2) ^ 2

/-- The inlier test `np.linalg.norm(dst_i - mapped_i) <= max_err`,
written without the square root: `sqrt s ≤ t ↔ 0 ≤ t ∧ s ≤ t ^ 2`. -/
def distLE (a b : ℚ × ℚ) (t : ℚ) : Bool :=
  decide (0 ≤ t ∧ dist2 a b ≤ t ^ 2)

/-- Justification that `distLE` is exactly the source's comparison of the
Euclidean norm against `max_err`, interpreted over the reals. -/
theorem distLE_eq_true_iff_sqrt_le (a b : ℚ × ℚ) (t : ℚ) :
    distLE a b t = true ↔ Real.sqrt ((dist2 a b : ℚ) : ℝ) ≤ (t : ℝ) := by
  have hs : (0 : ℝ) ≤ ((dist2 a b : ℚ) : ℝ) := by
    have : (0 : ℚ) ≤ dist2 a b := by unfold dist2; positivity
    exact_mod_cast this
  constructor
  · intro h
    simp only [distLE, decide_eq_true_eq] at h
    obtain ⟨ht, hle⟩ := h
    have ht' : (0 : ℝ) ≤ (t : ℝ) := by exact_mod_cast ht
    have hle' : ((dist2 a b : ℚ) : ℝ) ≤ (t : ℝ) ^ 2 := by exact_mod_cast hle
    calc Real.sqrt ((dist2 a b : ℚ) : ℝ) ≤ Real.sqrt ((t : ℝ) ^ 2) :=
          Real.sqrt_le_sqrt hle'
      _ = (t : ℝ) := by rw [Real.sqrt_sq ht']
  · intro h
    have ht' : (0 : ℝ) ≤ (t : ℝ) := le_trans (Real.sqrt_nonneg _) h
    have hle' : ((dist2 a b : ℚ) : ℝ) ≤ (t : ℝ) ^ 2 := by
      have := Real.sqrt_le_sqrt (le_of_eq (Real.sq_sqrt hs).symm)
      calc ((dist2 a b : ℚ) : ℝ) = Real.sqrt ((dist2 a b : ℚ) : ℝ) ^ 2 :=
            (Real.sq_sqrt hs).symm
        _ ≤ (t : ℝ) ^ 2 := by
            apply pow_le_pow_left₀ (Real.sqrt_nonneg _) h
    simp only [distLE, decide_eq_true_eq]
    constructor
    · exact_mod_cast ht'
    · exact_mod_cast hle'

/-! ## ModelEvaluator: `test_homography` and `meet_the_model_points`

Both source functions recompute the same mapping / distance / mask
pipeline; the embedding mirrors that by building the Boolean inlier mask
from the mapped points and then selecting columns by the mask
(`match_p[:, inliers]`). -/

/-- The Boolean inlier mask `dist <= max_err`, indexed like the columns
of the point arrays (`dist` is computed for `i in range(match_p_dst.shape[1])`). -/
def inlierMask (H : Mat3) (t : ℚ) (src dst : List (ℚ × ℚ)) : List Bool :=
  (dst.zip (src.map (mapPoint H))).map fun dm => distLE dm.1 dm.2 t

/-- Numpy Boolean-mask column selection `a[:, mask]`. -/
def maskSelect {α : Type} (l : List α) (m : List Bool) : List α :=
  (l.zip m).filterMap fun x => if x.2 then some x.1 else none

/-- Sum of squared per-coordinate differences of two point lists
(`np.square(np.subtract(a, b))` summed over both coordinates). -/
def sumSqDiff (a b : List (ℚ × ℚ)) : ℚ :=
  ((a.zip b).map fun pq => (pq.1.1 - pq.2.1) ^ 2 + (pq.1.2 - pq.2.2) ^ 2).sum

/-- Embeds `Solution.test_homography`: returns `(fit_percent, dist_mse)`. -/
def test_homography (H : Mat3) (src dst : List (ℚ × ℚ)) (t : ℚ) : ℚ × ℚ :=
  let mapped := src.map (mapPoint H)
  let mask := inlierMask H t src dst
  let numInl := mask.count true
  let distMse : ℚ :=
    if numInl = 0 then 10 ^ 9
    else sumSqDiff (maskSelect dst mask) (maskSelect mapped mask) / (2 * numInl)
  ((numInl : ℚ) / (src.length : ℚ), distMse)

/-- Embeds `Solution.meet_the_model_points`: the inlier columns of both arrays. -/
def meet_the_model_points (H : Mat3) (src dst : List (ℚ × ℚ)) (t : ℚ) :
    List (ℚ × ℚ) × List (ℚ × ℚ) :=
  let mask := inlierMask H t src dst
  (maskSelect src mask, maskSelect dst mask)

/-- Index-paired inlier predicate on a (source, destination) pair. -/
def isInlierPair (H : Mat3) (t : ℚ) (sd : (ℚ × ℚ) × (ℚ × ℚ)) : Bool :=
  distLE sd.2 (mapPoint H sd.1) t

/-- The list of correspondence pairs that pass the inlier test, in their
original index order. -/
def pairInliers (H : Mat3) (t : ℚ) (src dst : List (ℚ × ℚ)) :
    List ((ℚ × ℚ) × (ℚ × ℚ)) :=
  (src.zip dst).filter (isInlierPair H t)

/-- Mask selection on both arrays is exactly filtering the zipped pairs:
the key bridge between the numpy-style mask pipeline and the ordered
pair-subset view. -/
theorem maskSelect_char (H : Mat3) (t : ℚ) :
    ∀ (src dst : List (ℚ × ℚ)),
      maskSelect src (inlierMask H t src dst) =
          (pairInliers H t src dst).map Prod.fst
      ∧ maskSelect dst (inlierMask H t src dst) =
          (pairInliers H t src dst).map Prod.snd
      ∧ (inlierMask H t src dst).count true = (pairInliers H t src dst).length
      ∧ sumSqDiff (maskSelect dst (inlierMask H t src dst))
            (maskSelect (src.map (mapPoint H)) (inlierMask H t src dst)) =
          ((pairInliers H t src dst).map
            fun sd => dist2 sd.2 (mapPoint H sd.1)).sum := by
  intro src
  induction src with
  | nil =>
      intro dst
      simp [maskSelect, inlierMask, pairInliers, sumSqDiff]
  | cons s srcT ih =>
      intro dst
      cases dst with
      | nil => simp [maskSelect, inlierMask, pairInliers, sumSqDiff]
      | cons d dstT =>
          obtain ⟨ih1, ih2, ih3, ih4⟩ := ih dstT
          by_cases h : distLE d (mapPoint H s) t = true
          · constructor
            · simpa [maskSelect, inlierMask, pairInliers, isInlierPair, h]
                using ih1
            constructor
            · simpa [maskSelect, inlierMask, pairInliers, isInlierPair, h]
                using ih2
            constructor
            · simpa [inlierMask, pairInliers, isInlierPair, h] using ih3
            · simpa [maskSelect, inlierMask, pairInliers, isInlierPair,
                sumSqDiff, dist2, h] using ih4
          · rw [Bool.not_eq_true] at h
            constructor
            · simpa [maskSelect, inlierMask, pairInliers, isInlierPair, h]
                using ih1
            constructor
            · simpa [maskSelect, inlierMask, pairInliers, isInlierPair, h]
                using ih2
            constructor
            · simpa [inlierMask, pairInliers, isInlierPair, h] using ih3
            · simpa [maskSelect, inlierMask, pairInliers, isInlierPair,
                sumSqDiff, h] using ih4

/-- Claim C3: for every homography, correspondence set and `max_err`, if
the inlier test (mapped-point Euclidean distance ≤ `max_err`) classifies
zero points as inliers then `test_homography` returns `dist_mse` equal to
exactly `10 ^ 9`; otherwise it returns the mean of squared per-coordinate
differences taken over the inliers only (sum of squared coordinate
differences of the `D` inlier pairs, divided by `2 * D`). -/
theorem test_homography_mse_spec (H : Mat3) (src dst : List (ℚ × ℚ)) (t : ℚ)
    (hlen : src.length = dst.length) :
    ((pairInliers H t src dst).length = 0 →
        (test_homography H src dst t).2 = 10 ^ 9)
    ∧ ((pairInliers H t src dst).length ≠ 0 →
        (test_homography H src dst t).2 =
          ((pairInliers H t src dst).map
              fun sd => dist2 sd.2 (mapPoint H sd.1)).sum /
            (2 * (pairInliers H t src dst).length)) := by
  obtain ⟨h1, h2, h3, h4⟩ := maskSelect_char H t src dst
  constructor
  · intro h0
    simp [test_homography, h3, h0]
  · intro h0
    simp [test_homography, h3, h0, h4]

/-- Witness for C3, zero-inlier arm: a homography translating every point
by 100 pixels with tolerance 1 yields no inliers and the sentinel
`dist_mse = 10 ^ 9`. -/
theorem test_homography_mse_spec_witness :
    ([((0 : ℚ), (0 : ℚ))].length = [((0 : ℚ), (0 : ℚ))].length)
    ∧ (pairInliers ⟨1, 0, 100, 0, 1, 0, 0, 0, 1⟩ 1
        [((0 : ℚ), (0 : ℚ))] [((0 : ℚ), (0 : ℚ))]).length = 0
    ∧ (test_homography ⟨1, 0, 100, 0, 1, 0, 0, 0, 1⟩
        [((0 : ℚ), (0 : ℚ))] [((0 : ℚ), (0 : ℚ))] 1).2 = 10 ^ 9 := by
  have hinl : (pairInliers ⟨1, 0, 100, 0, 1, 0, 0, 0, 1⟩ 1
      [((0 : ℚ), (0 : ℚ))] [((0 : ℚ), (0 : ℚ))]).length = 0 := by
    norm_num [pairInliers, isInlierPair, distLE, mapPoint, applyH, dist2,
      List.filter]
  exact ⟨rfl, hinl,
    (test_homography_mse_spec ⟨1, 0, 100, 0, 1, 0, 0, 0, 1⟩
      [((0 : ℚ), (0 : ℚ))] [((0 : ℚ), (0 : ℚ))] 1 rfl).1 hinl⟩

/-- Claim C8: `meet_the_model_points` applies the same inlier test as
`test_homography` and returns exactly the inlier source and destination
points, index-aligned and in their original order (each returned list is
a sublist of its input), and the number of returned pairs divided by `N`
equals the `fit_percent` returned by `test_homography` on the same
inputs. -/
theorem meet_the_model_points_spec (H : Mat3) (src dst : List (ℚ × ℚ))
    (t : ℚ) (hlen : src.length = dst.length) :
    (meet_the_model_points H src dst t).1 =
        (pairInliers H t src dst).map Prod.fst
    ∧ (meet_the_model_points H src dst t).2 =
        (pairInliers H t src dst).map Prod.snd
    ∧ (∀ sd, sd ∈ pairInliers H t src dst ↔
        sd ∈ src.zip dst ∧ isInlierPair H t sd = true)
    ∧ (meet_the_model_points H src dst t).1.Sublist src
    ∧ (meet_the_model_points H src dst t).2.Sublist dst
    ∧ ((meet_the_model_points H src dst t).1.length : ℚ) /
          (src.length : ℚ) =
        (test_homography H src dst t).1 := by
  obtain ⟨h1, h2, h3, h4⟩ := maskSelect_char H t src dst
  refine ⟨by simpa [meet_the_model_points] using h1,
          by simpa [meet_the_model_points] using h2, ?_, ?_, ?_, ?_⟩
  · intro sd
    simp [pairInliers, List.mem_filter]
  · have hsub : (pairInliers H t src dst).Sublist (src.zip dst) :=
      List.filter_sublist _
    have := hsub.map Prod.fst
    rw [List.map_fst_zip src dst (le_of_eq hlen)] at this
    simpa [meet_the_model_points, h1] using this
  · have hsub : (pairInliers H t src dst).Sublist (src.zip dst) :=
      List.filter_sublist _
    have := hsub.map Prod.snd
    rw [List.map_snd_zip src dst (ge_of_eq hlen)] at this
    simpa [meet_the_model_points, h2] using this
  · simp [meet_the_model_points, test_homography, h1, h3]

/-- Witness for C8 at a concrete input: identity homography, two exact
correspondences and one gross outlier, tolerance 1. -/
theorem meet_the_model_points_spec_witness :
    (meet_the_model_points ⟨1, 0, 0, 0, 1, 0, 0, 0, 1⟩
        [((0 : ℚ), (0 : ℚ)), (5, 5), (2, 2)]
        [((0 : ℚ), (0 : ℚ)), (9, 9), (2, 2)] 1).1 = [(0, 0), (2, 2)]
    ∧ ((meet_the_model_points ⟨1, 0, 0, 0, 1, 0, 0, 0, 1⟩
        [((0 : ℚ), (0 : ℚ)), (5, 5), (2, 2)]
        [((0 : ℚ), (0 : ℚ)), (9, 9), (2, 2)] 1).1.length : ℚ) / 3 =
      (test_homography ⟨1, 0, 0, 0, 1, 0, 0, 0, 1⟩
        [((0 : ℚ), (0 : ℚ)), (5, 5), (2, 2)]
        [((0 : ℚ), (0 : ℚ)), (9, 9), (2, 2)] 1).1 := by
  have h := meet_the_model_points_spec ⟨1, 0, 0, 0, 1, 0, 0, 0, 1⟩
    [((0 : ℚ), (0 : ℚ)), (5, 5), (2, 2)]
    [((0 : ℚ), (0 : ℚ)), (9, 9), (2, 2)] 1 rfl
  constructor
  · rw [h.1]
    norm_num [pairInliers, isInlierPair, distLE, mapPoint, applyH, dist2,
      List.filter]
  · have := h.2.2.2.2.2
    simpa using this

/-! ## ForwardWarper: `compute_forward_homography_slow` / `_fast`

A source image is a color field `ℕ → ℕ → RGB` together with its extents
`h × w`; the destination grid is a field `ℤ × ℤ → RGB` (indexed
`(row v, col u)`), zero outside every write.  Both source functions
compute, for source pixel `(i, j)`, the rounded perspective projection of
`H · [j, i, 1]` and overwrite the destination cell when it is inside
`dst_image_shape`.  They differ only in the order in which the source
pixels are swept: the slow version scans `i` outer / `j` inner, while the
fast version flattens the `meshgrid(arange(W), arange(H), indexing='ij')`
coordinate matrix, which enumerates `j` outer / `i` inner; numpy's fancy
assignment `target[rows, cols] = values` writes in that order, so on a
repeated destination index the last value in iteration order wins. -/

/-- Pixel sweep order of the slow (loop) implementation: `i` outer, `j`
inner. -/
def slowOrder (h w : ℕ) : List (ℕ × ℕ) :=
  (List.range h).bind fun i => (List.range w).map fun j => (i, j)

/-- Pixel sweep order of the fast (vectorised) implementation: `j` outer,
`i` inner. -/
def fastOrder (h w : ℕ) : List (ℕ × ℕ) :=
  (List.range w).bind fun j => (List.range h).map fun i => (i, j)

/-- Rounded projection of source pixel `(i, j)`: the destination cell
`(v, u) = (round(y / z), round(x / z))` for `[x, y, z] = H · [j, i, 1]`. -/
def projectPixel (H : Mat3) (p : ℕ × ℕ) : ℤ × ℤ :=
  let v := applyH H (p.2 : ℚ) (p.1 : ℚ)
  (roundHE (v.y / v.z), roundHE (v.x / v.z))

/-- The bounds test `dst_shape[0] > v >= 0 and dst_shape[1] > u >= 0`. -/
def inBoundsCell (dh dw : ℕ) (cell : ℤ × ℤ) : Bool :=
  decide (0 ≤ cell.1 ∧ cell.1 < (dh : ℤ) ∧ 0 ≤ cell.2 ∧ cell.2 < (dw : ℤ))

/-- One write of the sweep: if the projected cell is in bounds, overwrite
it with the normalised source color. -/
def warpWrite (H : Mat3) (src : ℕ → ℕ → RGB) (dh dw : ℕ)
    (g : ℤ × ℤ → RGB) (p : ℕ × ℕ) : ℤ × ℤ → RGB :=
  let cell := projectPixel H p
  if inBoundsCell dh dw cell then
    fun q => if q = cell then rgbDiv255 (src p.1 p.2) else g q
  else g

/-- Sweep all source pixels in the given order over an all-zero
destination grid. -/
def warpSweep (H : Mat3) (src : ℕ → ℕ → RGB) (dh dw : ℕ)
    (order : List (ℕ × ℕ)) : ℤ × ℤ → RGB :=
  order.foldl (warpWrite H src dh dw) fun _ => RGB.zero

/-- Embeds `Solution.compute_forward_homography_slow`. -/
def compute_forward_homography_slow (H : Mat3) (src : ℕ → ℕ → RGB)
    (h w dh dw : ℕ) : ℤ × ℤ → RGB :=
  warpSweep H src dh dw (slowOrder h w)

/-- Embeds `Solution.compute_forward_homography_fast`. -/
def compute_forward_homography_fast (H : Mat3) (src : ℕ → ℕ → RGB)
    (h w dh dw : ℕ) : ℤ × ℤ → RGB :=
  warpSweep H src dh dw (fastOrder h w)

/-- Source pixel `p` writes destination cell `cell`: it projects onto it
and the cell is inside the destination bounds. -/
def writesTo (H : Mat3) (dh dw : ℕ) (p : ℕ × ℕ) (cell : ℤ × ℤ) : Prop :=
  projectPixel H p = cell ∧ inBoundsCell dh dw cell = true

instance (H : Mat3) (dh dw : ℕ) (p : ℕ × ℕ) (cell : ℤ × ℤ) :
    Decidable (writesTo H dh dw p cell) := by
  unfold writesTo; infer_instance

/-- Evaluating a sweep at one destination cell: the result is the
normalised color of the last source pixel in sweep order that writes the
cell, or the initial grid's value if no pixel writes it. -/
theorem warpSweep_apply (H : Mat3) (src : ℕ → ℕ → RGB) (dh dw : ℕ) :
    ∀ (order : List (ℕ × ℕ)) (g : ℤ × ℤ → RGB) (cell : ℤ × ℤ),
      order.foldl (warpWrite H src dh dw) g cell =
        match order.reverse.find? (fun p => decide (writesTo H dh dw p cell))
        with
        | some p => rgbDiv255 (src p.1 p.2)
        | none => g cell := by
  intro order
  induction order with
  | nil => intro g cell; simp
  | cons p l ih =>
      intro g cell
      rw [List.foldl_cons, ih, List.reverse_cons, List.find?_append]
      cases hl : l.reverse.find? (fun q => decide (writesTo H dh dw q cell))
      with
      | some q => simp [Option.or]
      | none =>
          simp only [Option.none_or]
          by_cases hp : writesTo H dh dw p cell
          · obtain ⟨hproj, hb⟩ := hp
            simp only [List.find?_singleton, decide_eq_true
              (show writesTo H dh dw p cell from ⟨hproj, hb⟩), cond_true]
            simp [warpWrite, hproj, hb]
          · simp only [List.find?_singleton,
              decide_eq_false hp, cond_false]
            simp only [warpWrite]
            by_cases hb : inBoundsCell dh dw (projectPixel H p) = true
            · have hne : cell ≠ projectPixel H p := by
                intro he
                exact hp ⟨he.symm, he ▸ hb⟩
              simp [hb, hne]
            · simp [hb]

/-- Membership in the slow sweep order is exactly being a pixel of the
source extents. -/
theorem mem_slowOrder {h w : ℕ} {p : ℕ × ℕ} :
    p ∈ slowOrder h w ↔ p.1 < h ∧ p.2 < w := by
  obtain ⟨i, j⟩ := p
  constructor
  · intro hp
    simp only [slowOrder, List.mem_bind, List.mem_map, List.mem_range] at hp
    obtain ⟨a, ha, b, hb, he⟩ := hp
    cases he
    exact ⟨ha, hb⟩
  · intro ⟨hi, hj⟩
    simp only [slowOrder, List.mem_bind, List.mem_map, List.mem_range]
    exact ⟨i, hi, j, hj, rfl⟩

/-- Membership in the fast sweep order is exactly being a pixel of the
source extents. -/
theorem mem_fastOrder {h w : ℕ} {p : ℕ × ℕ} :
    p ∈ fastOrder h w ↔ p.1 < h ∧ p.2 < w := by
  obtain ⟨i, j⟩ := p
  constructor
  · intro hp
    simp only [fastOrder, List.mem_bind, List.mem_map, List.mem_range] at hp
    obtain ⟨a, ha, b, hb, he⟩ := hp
    cases he
    exact ⟨hb, ha⟩
  · intro ⟨hi, hj⟩
    simp only [fastOrder, List.mem_bind, List.mem_map, List.mem_range]
    exact ⟨j, hj, i, hi, rfl⟩

/-- Claim C2 (amended): the per-pixel and the batch forward warp agree at
every destination cell whenever all source pixels with the same rounded
projection carry the same color — in particular whenever the rounded
projection is injective on the source grid.  (As stated over all inputs
the claim fails: the two sweeps write in different orders, see
`forward_slow_fast_differ`.) -/
theorem forward_slow_fast_agree (H : Mat3) (src : ℕ → ℕ → RGB)
    (h w dh dw : ℕ)
    (hcol : ∀ p q : ℕ × ℕ, p.1 < h → p.2 < w → q.1 < h → q.2 < w →
      projectPixel H p = projectPixel H q → src p.1 p.2 = src q.1 q.2) :
    ∀ cell, compute_forward_homography_slow H src h w dh dw cell =
      compute_forward_homography_fast H src h w dh dw cell := by
  intro cell
  rw [compute_forward_homography_slow, compute_forward_homography_fast,
    warpSweep, warpSweep, warpSweep_apply, warpSweep_apply]
  cases hs : (slowOrder h w).reverse.find?
      (fun p => decide (writesTo H dh dw p cell)) with
  | none =>
      cases hf : (fastOrder h w).reverse.find?
          (fun p => decide (writesTo H dh dw p cell)) with
      | none => rfl
      | some q =>
          exfalso
          have hq : writesTo H dh dw q cell := by
            have := List.find?_some hf
            simpa using this
          have hqmem : q ∈ (fastOrder h w).reverse :=
            List.mem_of_find?_eq_some hf
          have hqb : q.1 < h ∧ q.2 < w :=
            mem_fastOrder.mp (List.mem_reverse.mp hqmem)
          have := List.find?_eq_none.mp hs q
            (List.mem_reverse.mpr (mem_slowOrder.mpr hqb))
          simp [hq] at this
  | some p =>
      cases hf : (fastOrder h w).reverse.find?
          (fun p => decide (writesTo H dh dw p cell)) with
      | none =>
          exfalso
          have hp : writesTo H dh dw p cell := by
            have := List.find?_some hs
            simpa using this
          have hpmem : p ∈ (slowOrder h w).reverse :=
            List.mem_of_find?_eq_some hs
          have hpb : p.1 < h ∧ p.2 < w :=
            mem_slowOrder.mp (List.mem_reverse.mp hpmem)
          have := List.find?_eq_none.mp hf p
            (List.mem_reverse.mpr (mem_fastOrder.mpr hpb))
          simp [hp] at this
      | some q =>
          have hp : writesTo H dh dw p cell := by
            have := List.find?_some hs
            simpa using this
          have hq : writesTo H dh dw q cell := by
            have := List.find?_some hf
            simpa using this
          have hpb : p.1 < h ∧ p.2 < w :=
            mem_slowOrder.mp (List.mem_reverse.mp
              (List.mem_of_find?_eq_some hs))
          have hqb : q.1 < h ∧ q.2 < w :=
            mem_fastOrder.mp (List.mem_reverse.mp
              (List.mem_of_find?_eq_some hf))
          have : src p.1 p.2 = src q.1 q.2 :=
            hcol p q hpb.1 hpb.2 hqb.1 hqb.2 (hp.1.trans hq.1.symm)
          simp [rgbDiv255, this]

/-- A homography that collides source pixels `(i, j) = (0, 1)` and
`(1, 0)` onto destination cell `(0, 0)`: `H · [1, 0, 1] = H · [0, 1, 1]
= [0, 0, 1]`, while `(0, 0) ↦ (1, 1)` and `(1, 1) ↦ (-1, -1)` (out of
bounds). -/
def collideH : Mat3 := ⟨-1, -1, 1, -1, -1, 1, 0, 0, 1⟩

/-- A 2x2 source image whose two colliding pixels have different colors:
red at `(0, 1)`, green at `(1, 0)`, black elsewhere. -/
def collideSrc : ℕ → ℕ → RGB := fun i j =>
  if i = 0 ∧ j = 1 then ⟨255, 0, 0⟩
  else if i = 1 ∧ j = 0 then ⟨0, 255, 0⟩
  else ⟨0, 0, 0⟩

/-- Counterexample to claim C2 as stated: with `collideH` and
`collideSrc` (2x2 source, 2x2 destination), the slow sweep leaves the
green pixel `(1, 0)` at destination cell `(0, 0)` (it is written last in
`i`-outer order) while the fast sweep leaves the red pixel `(0, 1)` (last
in `j`-outer order), so the two output arrays differ. -/
theorem forward_slow_fast_differ :
    compute_forward_homography_slow collideH collideSrc 2 2 2 2 (0, 0) ≠
      compute_forward_homography_fast collideH collideSrc 2 2 2 2 (0, 0) := by
  have hslow : compute_forward_homography_slow collideH collideSrc 2 2 2 2
      (0, 0) = ⟨0, 1, 0⟩ := by
    norm_num [compute_forward_homography_slow, warpSweep, slowOrder,
      List.range_succ, warpWrite, projectPixel, applyH, roundHE,
      inBoundsCell, rgbDiv255, collideH, collideSrc, RGB.zero,
      Int.floor_eq_iff]
  have hfast : compute_forward_homography_fast collideH collideSrc 2 2 2 2
      (0, 0) = ⟨1, 0, 0⟩ := by
    norm_num [compute_forward_homography_fast, warpSweep, fastOrder,
      List.range_succ, warpWrite, projectPixel, applyH, roundHE,
      inBoundsCell, rgbDiv255, collideH, collideSrc, RGB.zero,
      Int.floor_eq_iff]
  rw [hslow, hfast]
  intro he
  exact absurd (congrArg RGB.r he) (by norm_num)

/-- Witness for the amended C2 theorem at a concrete input: identity
homography on a constant-color 1x1 source image. -/
theorem forward_slow_fast_agree_witness :
    compute_forward_homography_slow ⟨1, 0, 0, 0, 1, 0, 0, 0, 1⟩
        (fun _ _ => ⟨255, 255, 255⟩) 1 1 2 2 (0, 0) =
      compute_forward_homography_fast ⟨1, 0, 0, 0, 1, 0, 0, 0, 1⟩
        (fun _ _ => ⟨255, 255, 255⟩) 1 1 2 2 (0, 0) :=
  forward_slow_fast_agree ⟨1, 0, 0, 0, 1, 0, 0, 0, 1⟩
    (fun _ _ => ⟨255, 255, 255⟩) 1 1 2 2
    (fun _ _ _ _ _ _ _ => rfl) (0, 0)

/-- Claim C7 (amended): in the slow forward warp, a destination cell that
no in-range source pixel writes stays zero, and a destination cell with a
unique in-range writing pixel `(i, j)` holds that pixel's normalised
color `src(i, j) / 255`.  (As stated for every writing pixel the claim
fails: when several pixels write the same cell, only the last one in
sweep order survives, see `forward_slow_overwritten`.) -/
theorem forward_slow_cell_spec (H : Mat3) (src : ℕ → ℕ → RGB)
    (h w dh dw : ℕ) (cell : ℤ × ℤ) :
    ((∀ p : ℕ × ℕ, p.1 < h → p.2 < w → ¬ writesTo H dh dw p cell) →
      compute_forward_homography_slow H src h w dh dw cell = RGB.zero)
    ∧ (∀ p : ℕ × ℕ, p.1 < h → p.2 < w → writesTo H dh dw p cell →
        (∀ q : ℕ × ℕ, q.1 < h → q.2 < w → writesTo H dh dw q cell →
          q = p) →
        compute_forward_homography_slow H src h w dh dw cell =
          rgbDiv255 (src p.1 p.2)) := by
  constructor
  · intro hnone
    rw [compute_forward_homography_slow, warpSweep, warpSweep_apply]
    have hfind : (slowOrder h w).reverse.find?
        (fun p => decide (writesTo H dh dw p cell)) = none := by
      rw [List.find?_eq_none]
      intro p hp
      have hb := mem_slowOrder.mp (List.mem_reverse.mp hp)
      simpa using hnone p hb.1 hb.2
    rw [hfind]
  · intro p hp1 hp2 hwrite huniq
    rw [compute_forward_homography_slow, warpSweep, warpSweep_apply]
    cases hfind : (slowOrder h w).reverse.find?
        (fun p => decide (writesTo H dh dw p cell)) with
    | none =>
        exfalso
        have := List.find?_eq_none.mp hfind p
          (List.mem_reverse.mpr (mem_slowOrder.mpr ⟨hp1, hp2⟩))
        simp [hwrite] at this
    | some q =>
        have hq : writesTo H dh dw q cell := by
          have := List.find?_some hfind
          simpa using this
        have hqb := mem_slowOrder.mp (List.mem_reverse.mp
          (List.mem_of_find?_eq_some hfind))
        rw [huniq q hqb.1 hqb.2 hq]

/-- Counterexample to claim C7 as stated: with `collideH` and
`collideSrc`, source pixel `(0, 1)` projects in bounds onto destination
cell `(0, 0)`, yet the slow warp's final value there is not that pixel's
color: the later pixel `(1, 0)` overwrote it. -/
theorem forward_slow_overwritten :
    writesTo collideH 2 2 (0, 1) (0, 0)
    ∧ compute_forward_homography_slow collideH collideSrc 2 2 2 2 (0, 0) ≠
        rgbDiv255 (collideSrc 0 1) := by
  constructor
  · constructor
    · norm_num [projectPixel, applyH, collideH, roundHE]
    · norm_num [inBoundsCell]
  · have hslow : compute_forward_homography_slow collideH collideSrc 2 2 2 2
        (0, 0) = ⟨0, 1, 0⟩ := by
      norm_num [compute_forward_homography_slow, warpSweep, slowOrder,
        List.range_succ, warpWrite, projectPixel, applyH, roundHE,
        inBoundsCell, rgbDiv255, collideH, collideSrc, RGB.zero,
        Int.floor_eq_iff]
    rw [hslow]
    intro he
    exact absurd (congrArg RGB.r he) (by norm_num [collideSrc, rgbDiv255])

/-- Witness for the amended C7 theorem: identity homography on a 1x1
source image; its only pixel writes cell `(0, 0)` uniquely, and cell
`(1, 1)` is never written and stays zero. -/
theorem forward_slow_cell_spec_witness :
    compute_forward_homography_slow ⟨1, 0, 0, 0, 1, 0, 0, 0, 1⟩
        (fun _ _ => ⟨255, 0, 0⟩) 1 1 2 2 (0, 0) =
      rgbDiv255 (⟨255, 0, 0⟩ : RGB)
    ∧ compute_forward_homography_slow ⟨1, 0, 0, 0, 1, 0, 0, 0, 1⟩
        (fun _ _ => ⟨255, 0, 0⟩) 1 1 2 2 (1, 1) = RGB.zero := by
  have hw : writesTo ⟨1, 0, 0, 0, 1, 0, 0, 0, 1⟩ 2 2 (0, 0) (0, 0) := by
    constructor
    · norm_num [projectPixel, applyH, roundHE]
    · norm_num [inBoundsCell]
  constructor
  · exact (forward_slow_cell_spec ⟨1, 0, 0, 0, 1, 0, 0, 0, 1⟩
      (fun _ _ => ⟨255, 0, 0⟩) 1 1 2 2 (0, 0)).2 (0, 0)
      (by norm_num) (by norm_num) hw
      (fun q hq1 hq2 _ => by
        obtain ⟨a, b⟩ := q
        simp only [Nat.lt_one_iff] at hq1 hq2
        simp [hq1, hq2])
  · refine (forward_slow_cell_spec ⟨1, 0, 0, 0, 1, 0, 0, 0, 1⟩
      (fun _ _ => ⟨255, 0, 0⟩) 1 1 2 2 (1, 1)).1 ?_
    intro p hp1 hp2 hwr
    obtain ⟨a, b⟩ := p
    simp only [Nat.lt_one_iff] at hp1 hp2
    subst hp1; subst hp2
    obtain ⟨hproj, _⟩ := hwr
    rw [show projectPixel ⟨1, 0, 0, 0, 1, 0, 0, 0, 1⟩ ((0 : ℕ), (0 : ℕ)) =
        (0, 0) by norm_num [projectPixel, applyH, roundHE]] at hproj
    exact absurd (congrArg Prod.fst hproj) (by norm_num)

/-! ## RobustEstimator: `compute_homography` (RANSAC)

`compute_homography_naive` solves an SVD least-squares system; its
numerics are not reproducible here, so the fitting routine is a function
parameter `fitH` (applied both to the minimal sample and to the refit on
the inliers, exactly as the source calls `compute_homography_naive`).
`np.random.choice(N, size=4, replace=False)` is a stream `samples : ℕ →
List ℕ` of drawn index lists, one per iteration; its documented contract
(4 distinct indices below `N`, drawn uniformly) is a hypothesis on that
stream.  The result is a Python value that is either a `str` or a 3x3
array; this dynamic union is the sum type `RansacResult`. -/

/-- The dynamically-typed return value of `Solution.compute_homography`:
either the descriptive failure string or a homography matrix. -/
inductive RansacResult where
  | noModel (msg : String) : RansacResult
  | found (H : Mat3) : RansacResult
  deriving DecidableEq

/-- The count `k = int(np.ceil(np.log(1 - p) / np.log(1 - w ** n))) + 1` with
`p = 0.99`, `n = 4`.  For `w = 1`, numpy evaluates the quotient to `-0.0`
(the denominator is `-inf`) and `k = 1`; Mathlib's junk values
`Real.log 0 = 0` and `x / 0 = 0` give the same `k = 1`. -/
noncomputable def ransacK (w : ℝ) : ℕ :=
  (⌈Real.log (1 - 0.99) / Real.log (1 - w ^ 4)⌉).toNat + 1

/-- Column selection `match_p[:, choose_index]`. -/
def sampleColumns (pts : List (ℚ × ℚ)) (idx : List ℕ) : List (ℚ × ℚ) :=
  idx.map fun j => pts.getD j (0, 0)

/-- The candidate homography fitted from the sampled minimal set. -/
def ransacCandidate (fitH : List (ℚ × ℚ) → List (ℚ × ℚ) → Mat3)
    (src dst : List (ℚ × ℚ)) (idx : List ℕ) : Mat3 :=
  fitH (sampleColumns src idx) (sampleColumns dst idx)

/-- The `d` condition of one iteration:
`inliers_src.shape[1] / match_p_src.shape[1] > d` with `d = 0.5`. -/
def ransacClears (fitH : List (ℚ × ℚ) → List (ℚ × ℚ) → Mat3)
    (src dst : List (ℚ × ℚ)) (t : ℚ) (idx : List ℕ) : Bool :=
  decide ((((meet_the_model_points (ransacCandidate fitH src dst idx)
      src dst t).1.length : ℚ) / (src.length : ℚ)) > 1 / 2)

/-- The refit homography computed from all inliers of the candidate. -/
def ransacRefit (fitH : List (ℚ × ℚ) → List (ℚ × ℚ) → Mat3)
    (src dst : List (ℚ × ℚ)) (t : ℚ) (idx : List ℕ) : Mat3 :=
  let m := meet_the_model_points (ransacCandidate fitH src dst idx) src dst t
  fitH m.1 m.2

/-- The model error of the refit homography over the full correspondence
set (`test_homography(...)[1]`). -/
def ransacErr (fitH : List (ℚ × ℚ) → List (ℚ × ℚ) → Mat3)
    (src dst : List (ℚ × ℚ)) (t : ℚ) (idx : List ℕ) : ℚ :=
  (test_homography (ransacRefit fitH src dst t idx) src dst t).2

/-- One RANSAC iteration acting on the running `(err, homography)` state
(`none` stands for `err = np.inf`, before any model has been stored). -/
def ransacStep (fitH : List (ℚ × ℚ) → List (ℚ × ℚ) → Mat3)
    (src dst : List (ℚ × ℚ)) (t : ℚ) (st : Option (ℚ × Mat3))
    (idx : List ℕ) : Option (ℚ × Mat3) :=
  if ransacClears fitH src dst t idx then
    match st with
    | none => some (ransacErr fitH src dst t idx,
        ransacRefit fitH src dst t idx)
    | some (e, h) =>
        if ransacErr fitH src dst t idx < e then
          some (ransacErr fitH src dst t idx, ransacRefit fitH src dst t idx)
        else some (e, h)
  else st

/-- The index samples consumed by the `k` iterations of
`compute_homography`, in iteration order. -/
noncomputable def ransacSamplesUsed (samples : ℕ → List ℕ) (w : ℝ) :
    List (List ℕ) :=
  (List.range (ransacK w)).map samples

/-- Embeds `Solution.compute_homography`: run the `k` RANSAC iterations; if
`err` never left `np.inf`, the Python function returns the string
`"High error, model wasn't saved"` instead of a matrix. -/
noncomputable def compute_homography
    (fitH : List (ℚ × ℚ) → List (ℚ × ℚ) → Mat3) (samples : ℕ → List ℕ)
    (src dst : List (ℚ × ℚ)) (w : ℝ) (t : ℚ) : RansacResult :=
  match (ransacSamplesUsed samples w).foldl (ransacStep fitH src dst t)
      none with
  | none => .noModel "High error, model wasn\x27t saved"
  | some eh => .found eh.2

/-- Characterisation of the RANSAC fold: it ends in `none` exactly when
no iteration cleared the `d` threshold, and otherwise holds a refit model
of minimal error among the clearing iterations. -/
theorem ransacFoldl_char (fitH : List (ℚ × ℚ) → List (ℚ × ℚ) → Mat3)
    (src dst : List (ℚ × ℚ)) (t : ℚ) :
    ∀ L : List (List ℕ),
      (L.foldl (ransacStep fitH src dst t) none = none ↔
        ∀ idx ∈ L, ransacClears fitH src dst t idx = false)
      ∧ (∀ e h, L.foldl (ransacStep fitH src dst t) none = some (e, h) →
          ∃ idx ∈ L, ransacClears fitH src dst t idx = true ∧
            h = ransacRefit fitH src dst t idx ∧
            e = ransacErr fitH src dst t idx ∧
            ∀ idx' ∈ L, ransacClears fitH src dst t idx' = true →
              e ≤ ransacErr fitH src dst t idx') := by
  intro L
  induction L using List.reverseRecOn with
  | nil => exact ⟨by simp, by simp⟩
  | append_singleton L a ih =>
      rw [List.foldl_append, List.foldl_cons, List.foldl_nil]
      by_cases hc : ransacClears fitH src dst t a = true
      · cases hL : L.foldl (ransacStep fitH src dst t) none with
        | none =>
            constructor
            · simp only [ransacStep, hc, if_true]
              constructor
              · intro h; exact absurd h (by simp)
              · intro hall
                exact absurd (hall a (by simp)) (by simp [hc])
            · intro e h he
              simp only [ransacStep, hc, if_true, Option.some.injEq] at he
              have he1 : e = ransacErr fitH src dst t a :=
                (congrArg Prod.fst he).symm
              have he2 : h = ransacRefit fitH src dst t a :=
                (congrArg Prod.snd he).symm
              refine ⟨a, by simp, hc, he2, he1, ?_⟩
              intro idx' hidx' hcl'
              rcases List.mem_append.mp hidx' with hmem | hmem
              · exact absurd hcl' (by simp [(ih.1.mp hL) idx' hmem])
              · have : idx' = a := by simpa using hmem
                subst this
                exact le_of_eq he1
        | some eh =>
            obtain ⟨e₀, h₀⟩ := eh
            have hprev := ih.2 e₀ h₀ hL
            obtain ⟨idx₀, hmem₀, hcl₀, hh₀, he₀, hmin₀⟩ := hprev
            by_cases herr : ransacErr fitH src dst t a < e₀
            · constructor
              · simp only [ransacStep, hc, if_true, herr]
                constructor
                · intro h; exact absurd h (by simp)
                · intro hall
                  exact absurd (hall a (by simp)) (by simp [hc])
              · intro e h he
                simp only [ransacStep, hc, if_true, herr, if_true,
                  Option.some.injEq] at he
                have he1 : e = ransacErr fitH src dst t a :=
                  congrArg Prod.fst he.symm
                have he2 : h = ransacRefit fitH src dst t a :=
                  congrArg Prod.snd he.symm
                refine ⟨a, by simp, hc, he2, he1, ?_⟩
                intro idx' hidx' hcl'
                rcases List.mem_append.mp hidx' with hmem | hmem
                · have := hmin₀ idx' hmem hcl'
                  rw [he1]
                  exact le_trans (le_of_lt herr) this
                · have : idx' = a := by simpa using hmem
                  subst this
                  exact le_of_eq he1
            · constructor
              · simp only [ransacStep, hc, if_true, herr, if_false]
                constructor
                · intro h; exact absurd h (by simp)
                · intro hall
                  exact absurd (hall a (by simp)) (by simp [hc])
              · intro e h he
                simp only [ransacStep, hc, if_true, herr, if_false,
                  Option.some.injEq] at he
                have he1 : e = e₀ := congrArg Prod.fst he.symm
                have he2 : h = h₀ := congrArg Prod.snd he.symm
                subst he1; subst he2
                refine ⟨idx₀, List.mem_append.mpr (Or.inl hmem₀), hcl₀,
                  hh₀, he₀, ?_⟩
                intro idx' hidx' hcl'
                rcases List.mem_append.mp hidx' with hmem | hmem
                · exact hmin₀ idx' hmem hcl'
                · have : idx' = a := by simpa using hmem
                  subst this
                  exact le_of_not_lt herr
      · rw [Bool.not_eq_true] at hc
        have hstep : ∀ st, ransacStep fitH src dst t st a = st := by
          intro st; simp [ransacStep, hc]
        rw [hstep]
        constructor
        · rw [ih.1]
          constructor
          · intro hall idx hidx
            rcases List.mem_append.mp hidx with hmem | hmem
            · exact hall idx hmem
            · have : idx = a := by simpa using hmem
              subst this; exact hc
          · intro hall idx hidx
            exact hall idx (List.mem_append.mpr (Or.inl hidx))
        · intro e h he
          obtain ⟨idx₀, hmem₀, hcl₀, hh₀, he₀, hmin₀⟩ := ih.2 e h he
          refine ⟨idx₀, List.mem_append.mpr (Or.inl hmem₀), hcl₀, hh₀,
            he₀, ?_⟩
          intro idx' hidx' hcl'
          rcases List.mem_append.mp hidx' with hmem | hmem
          · exact hmin₀ idx' hmem hcl'
          · have : idx' = a := by simpa using hmem
            subst this
            exact absurd hcl' (by simp [hc])

/-- Claim C1: if no RANSAC iteration produces a minimal-sample candidate
whose inlier fraction over the full correspondence set exceeds
`d = 0.5`, `compute_homography` returns the explicit failure value
carrying the string `"High error, model wasn't saved"` — a value that is
not a 3x3 matrix result (`≠ found M` for every matrix `M`); otherwise it
returns `found` of a refit homography from a clearing iteration whose
model error is minimal among all clearing iterations. -/
theorem compute_homography_spec
    (fitH : List (ℚ × ℚ) → List (ℚ × ℚ) → Mat3) (samples : ℕ → List ℕ)
    (src dst : List (ℚ × ℚ)) (w : ℝ) (t : ℚ) :
    ((∀ idx ∈ ransacSamplesUsed samples w,
        ransacClears fitH src dst t idx = false) →
      compute_homography fitH samples src dst w t =
          .noModel "High error, model wasn\x27t saved"
      ∧ ∀ M : Mat3, compute_homography fitH samples src dst w t ≠ .found M)
    ∧ ((∃ idx ∈ ransacSamplesUsed samples w,
        ransacClears fitH src dst t idx = true) →
      ∃ idx ∈ ransacSamplesUsed samples w,
        ransacClears fitH src dst t idx = true ∧
        compute_homography fitH samples src dst w t =
          .found (ransacRefit fitH src dst t idx) ∧
        ∀ idx' ∈ ransacSamplesUsed samples w,
          ransacClears fitH src dst t idx' = true →
            ransacErr fitH src dst t idx ≤ ransacErr fitH src dst t idx') := by
  obtain ⟨hnone, hsome⟩ :=
    ransacFoldl_char fitH src dst t (ransacSamplesUsed samples w)
  constructor
  · intro hall
    have hfold := hnone.mpr hall
    constructor
    · rw [compute_homography, hfold]
    · intro M
      rw [compute_homography, hfold]
      simp
  · intro ⟨idx₀, hmem₀, hcl₀⟩
    cases hfold : (ransacSamplesUsed samples w).foldl
        (ransacStep fitH src dst t) none with
    | none =>
        exact absurd hcl₀ (by simp [hnone.mp hfold idx₀ hmem₀])
    | some eh =>
        obtain ⟨e, h⟩ := eh
        obtain ⟨idx, hmem, hcl, hh, he, hmin⟩ := hsome e h hfold
        refine ⟨idx, hmem, hcl, ?_, ?_⟩
        · rw [compute_homography, hfold, hh]
        · intro idx' hmem' hcl'
          rw [← he]
          exact hmin idx' hmem' hcl'

/-- The count `k` evaluates to `1` at `w = 1` (the junk-value conventions of numpy
and Mathlib agree there, see `ransacK`). -/
theorem ransacK_one : ransacK 1 = 1 := by
  unfold ransacK
  norm_num

/-- Four exact correspondences forming a unit square. -/
def pts4 : List (ℚ × ℚ) := [(0, 0), (1, 0), (0, 1), (1, 1)]

/-- A sampling stream that always draws the four indices `0, 1, 2, 3`. -/
def sampleAll : ℕ → List ℕ := fun _ => [0, 1, 2, 3]

/-- A fitting oracle that always returns a translation by 100 pixels
(so nothing is an inlier at tolerance 1). -/
def fitTranslate100 : List (ℚ × ℚ) → List (ℚ × ℚ) → Mat3 :=
  fun _ _ => ⟨1, 0, 100, 0, 1, 0, 0, 0, 1⟩

/-- A fitting oracle that always returns the identity homography. -/
def fitIdentity : List (ℚ × ℚ) → List (ℚ × ℚ) → Mat3 :=
  fun _ _ => ⟨1, 0, 0, 0, 1, 0, 0, 0, 1⟩

/-- The single sample drawn at `w = 1`. -/
theorem ransacSamplesUsed_one :
    ransacSamplesUsed sampleAll 1 = [[0, 1, 2, 3]] := by
  rw [ransacSamplesUsed, ransacK_one]
  rfl

/-- The translation-by-100 candidate clears nothing at tolerance 1. -/
theorem ransacClears_fitTranslate100 :
    ransacClears fitTranslate100 pts4 pts4 1 [0, 1, 2, 3] = false := by
  norm_num [ransacClears, ransacCandidate, sampleColumns,
    meet_the_model_points, inlierMask, maskSelect, distLE, mapPoint,
    applyH, dist2, fitTranslate100, pts4]

/-- The identity candidate clears the `d` threshold on exact data. -/
theorem ransacClears_fitIdentity :
    ransacClears fitIdentity pts4 pts4 1 [0, 1, 2, 3] = true := by
  norm_num [ransacClears, ransacCandidate, sampleColumns,
    meet_the_model_points, inlierMask, maskSelect, distLE, mapPoint,
    applyH, dist2, fitIdentity, pts4, List.filterMap_cons]

/-- Witness for C1, both arms at concrete inputs (`w = 1`, so `k = 1`):
with the never-fitting oracle the result is the failure string value;
with the identity oracle a clearing iteration exists and the result is a
`found` matrix. -/
theorem compute_homography_spec_witness :
    compute_homography fitTranslate100 sampleAll pts4 pts4 1 1 =
        .noModel "High error, model wasn\x27t saved"
    ∧ (∀ M : Mat3,
        compute_homography fitTranslate100 sampleAll pts4 pts4 1 1 ≠
          .found M)
    ∧ ∃ idx ∈ ransacSamplesUsed sampleAll 1,
        ransacClears fitIdentity pts4 pts4 1 idx = true ∧
        compute_homography fitIdentity sampleAll pts4 pts4 1 1 =
          .found (ransacRefit fitIdentity pts4 pts4 1 idx) := by
  have harm1 := (compute_homography_spec fitTranslate100 sampleAll
    pts4 pts4 1 1).1 (by
      rw [ransacSamplesUsed_one]
      intro idx hidx
      rw [List.mem_singleton] at hidx
      rw [hidx]
      exact ransacClears_fitTranslate100)
  have harm2 := (compute_homography_spec fitIdentity sampleAll
    pts4 pts4 1 1).2 (by
      refine ⟨[0, 1, 2, 3], ?_, ransacClears_fitIdentity⟩
      rw [ransacSamplesUsed_one]
      exact List.mem_singleton.mpr rfl)
  obtain ⟨idx, hmem, hcl, hfound, _⟩ := harm2
  exact ⟨harm1.1, harm1.2, idx, hmem, hcl, hfound⟩

/-- Claim C4: for every `inliers_percent` `w`, `compute_homography` runs
exactly `k = ceil(log(1 - p) / log(1 - w^4)) + 1` iterations with
`p = 0.99` — the list of consumed samples has exactly that length and the
result depends on no sample beyond the first `k` — and, under the
contract of `np.random.choice(N, size=4, replace=False)`, every consumed
sample consists of 4 distinct correspondence indices below `N`. -/
theorem compute_homography_iterations
    (fitH : List (ℚ × ℚ) → List (ℚ × ℚ) → Mat3)
    (samples samples' : ℕ → List ℕ) (src dst : List (ℚ × ℚ)) (w : ℝ)
    (t : ℚ)
    (hchoice : ∀ i, (samples i).length = 4 ∧ (samples i).Nodup ∧
      ∀ x ∈ samples i, x < src.length) :
    (ransacSamplesUsed samples w).length =
        (⌈Real.log (1 - 0.99) / Real.log (1 - w ^ 4)⌉).toNat + 1
    ∧ (∀ s ∈ ransacSamplesUsed samples w,
        s.length = 4 ∧ s.Nodup ∧ ∀ x ∈ s, x < src.length)
    ∧ ((∀ i < ransacK w, samples' i = samples i) →
        compute_homography fitH samples' src dst w t =
          compute_homography fitH samples src dst w t) := by
  refine ⟨by simp [ransacSamplesUsed, ransacK], ?_, ?_⟩
  · intro s hs
    simp only [ransacSamplesUsed, List.mem_map, List.mem_range] at hs
    obtain ⟨i, _, rfl⟩ := hs
    exact hchoice i
  · intro hagree
    have : ransacSamplesUsed samples' w = ransacSamplesUsed samples w := by
      unfold ransacSamplesUsed
      exact List.map_congr_left fun i hi =>
        hagree i (List.mem_range.mp hi)
    rw [compute_homography, compute_homography, this]

/-- Witness for C4 at `w = 1` with the always-`[0,1,2,3]` sampler on four
points: one iteration, whose sample is 4 distinct valid indices. -/
theorem compute_homography_iterations_witness :
    (ransacSamplesUsed sampleAll 1).length =
        (⌈Real.log (1 - 0.99) / Real.log (1 - (1 : ℝ) ^ 4)⌉).toNat + 1
    ∧ (∀ s ∈ ransacSamplesUsed sampleAll 1,
        s.length = 4 ∧ s.Nodup ∧ ∀ x ∈ s, x < pts4.length) := by
  have h := compute_homography_iterations fitIdentity sampleAll sampleAll
    pts4 pts4 1 1 (by
      intro i
      refine ⟨rfl, ?_, ?_⟩
      · show ([0, 1, 2, 3] : List ℕ).Nodup
        decide
      · intro x hx
        simp only [sampleAll] at hx
        fin_cases hx <;> norm_num [pts4])
  exact ⟨h.1, h.2.1⟩

/-! ## PanoramaGeometry: `find_panorama_shape`

Only the shapes of the two images are read (`src_image.shape`,
`dst_image.shape`), so the embedding takes the four extents.  The four
1-based source corners are transformed by `H` with a perspective divide;
each pad is the maximum overflow over the corners; the canvas extents
are `int(dst + pad_a + pad_b)` computed on the exact (pre-truncation)
pads, while the returned `PadStruct` holds each pad truncated
individually. -/

/-- The `PadStruct` namedtuple (integer pads, as built by the source). -/
structure PadStruct where
  pad_up : ℤ
  pad_down : ℤ
  pad_right : ℤ
  pad_left : ℤ
  deriving DecidableEq

/-- The four pad accumulators of the corner loop, before the `int(...)`
casts. -/
structure QPads where
  up : ℚ
  down : ℚ
  right : ℚ
  left : ℚ
  deriving DecidableEq

/-- The 1-based corners of the source image, as `(x, y) = (col, row)`:
`[1,1]`, `[src_cols,1]`, `[1,src_rows]`, `[src_cols,src_rows]`. -/
def srcCorners (srcRows srcCols : ℕ) : List (ℚ × ℚ) :=
  [(1, 1), ((srcCols : ℚ), 1), (1, (srcRows : ℚ)),
    ((srcCols : ℚ), (srcRows : ℚ))]

/-- One pass of the corner loop: grow `pad_up` / `pad_right` /
`pad_left` / `pad_down` by the corner's overflow in that direction. -/
def padAccum (dstRows dstCols : ℕ) (acc : QPads) (c : ℚ × ℚ) : QPads :=
  let a1 := if c.2 < 1 then { acc with up := max acc.up |c.2| } else acc
  let a2 := if c.1 > (dstCols : ℚ) then
    { a1 with right := max a1.right (c.1 - (dstCols : ℚ)) } else a1
  let a3 := if c.1 < 1 then { a2 with left := max a2.left |c.1| } else a2
  if c.2 > (dstRows : ℚ) then
    { a3 with down := max a3.down (c.2 - (dstRows : ℚ)) } else a3

/-- The exact pads after the loop over all four transformed corners. -/
def panoramaPads (H : Mat3) (srcRows srcCols dstRows dstCols : ℕ) : QPads :=
  ((srcCorners srcRows srcCols).map (mapPoint H)).foldl
    (padAccum dstRows dstCols) ⟨0, 0, 0, 0⟩

/-- Embeds `Solution.find_panorama_shape`: returns
`(panorama_rows_num, panorama_cols_num, pad_struct)`. -/
def find_panorama_shape (H : Mat3) (srcRows srcCols dstRows dstCols : ℕ) :
    ℤ × ℤ × PadStruct :=
  let p := panoramaPads H srcRows srcCols dstRows dstCols
  (pyInt ((dstRows : ℚ) + p.up + p.down),
   pyInt ((dstCols : ℚ) + p.right + p.left),
   ⟨pyInt p.up, pyInt p.down, pyInt p.right, pyInt p.left⟩)

/-- Each component of the pad accumulator only grows along the loop. -/
theorem padAccum_ge (dstRows dstCols : ℕ) (acc : QPads) (c : ℚ × ℚ) :
    acc.up ≤ (padAccum dstRows dstCols acc c).up
    ∧ acc.down ≤ (padAccum dstRows dstCols acc c).down
    ∧ acc.right ≤ (padAccum dstRows dstCols acc c).right
    ∧ acc.left ≤ (padAccum dstRows dstCols acc c).left := by
  unfold padAccum
  split_ifs <;> simp_all [le_max_left, le_refl]

/-- The exact pads are non-negative. -/
theorem panoramaPads_nonneg (H : Mat3)
    (srcRows srcCols dstRows dstCols : ℕ) :
    0 ≤ (panoramaPads H srcRows srcCols dstRows dstCols).up
    ∧ 0 ≤ (panoramaPads H srcRows srcCols dstRows dstCols).down
    ∧ 0 ≤ (panoramaPads H srcRows srcCols dstRows dstCols).right
    ∧ 0 ≤ (panoramaPads H srcRows srcCols dstRows dstCols).left := by
  have key : ∀ (l : List (ℚ × ℚ)) (acc : QPads),
      0 ≤ acc.up → 0 ≤ acc.down → 0 ≤ acc.right → 0 ≤ acc.left →
      0 ≤ (l.foldl (padAccum dstRows dstCols) acc).up
      ∧ 0 ≤ (l.foldl (padAccum dstRows dstCols) acc).down
      ∧ 0 ≤ (l.foldl (padAccum dstRows dstCols) acc).right
      ∧ 0 ≤ (l.foldl (padAccum dstRows dstCols) acc).left := by
    intro l
    induction l with
    | nil => intro acc h1 h2 h3 h4; exact ⟨h1, h2, h3, h4⟩
    | cons c l ih =>
        intro acc h1 h2 h3 h4
        obtain ⟨g1, g2, g3, g4⟩ := padAccum_ge dstRows dstCols acc c
        exact ih _ (le_trans h1 g1) (le_trans h2 g2) (le_trans h3 g3)
          (le_trans h4 g4)
  exact key _ ⟨0, 0, 0, 0⟩ le_rfl le_rfl le_rfl le_rfl

/-- Truncated floor bounds for a canvas axis: with pads `a, b ≥ 0`,
`⌊n + a + b⌋` lies between `n + ⌊a⌋ + ⌊b⌋` and `n + ⌊a⌋ + ⌊b⌋ + 1`. -/
theorem floor_add_pads (n : ℕ) (a b : ℚ) (ha : 0 ≤ a) (hb : 0 ≤ b) :
    (n : ℤ) + ⌊a⌋ + ⌊b⌋ ≤ ⌊(n : ℚ) + a + b⌋
    ∧ ⌊(n : ℚ) + a + b⌋ ≤ (n : ℤ) + ⌊a⌋ + ⌊b⌋ + 1 := by
  constructor
  · apply Int.le_floor.mpr
    push_cast
    have h1 := Int.floor_le a
    have h2 := Int.floor_le b
    linarith
  · have h1 := Int.lt_floor_add_one a
    have h2 := Int.lt_floor_add_one b
    have : (n : ℚ) + a + b < ((n : ℤ) + ⌊a⌋ + ⌊b⌋ + 1 + 1 : ℤ) := by
      push_cast
      linarith
    exact Int.lt_add_one_iff.mp (Int.floor_lt.mpr this)

/-- Claim C5 (amended): `find_panorama_shape` returns non-negative
integer padding values, and each canvas extent is the truncation of the
destination extent plus the exact (pre-truncation) total padding on that
axis; this is at least the destination extent plus the returned
individually-truncated pads and at most one more.  (Exact equality with
`dst + pad_a + pad_b` on the returned integer pads fails in general,
see `find_panorama_shape_counterexample`.) -/
theorem find_panorama_shape_spec (H : Mat3)
    (srcRows srcCols dstRows dstCols : ℕ) :
    0 ≤ (find_panorama_shape H srcRows srcCols dstRows dstCols).2.2.pad_up
    ∧ 0 ≤ (find_panorama_shape H srcRows srcCols dstRows dstCols).2.2.pad_down
    ∧ 0 ≤ (find_panorama_shape H srcRows srcCols dstRows dstCols).2.2.pad_right
    ∧ 0 ≤ (find_panorama_shape H srcRows srcCols dstRows dstCols).2.2.pad_left
    ∧ (find_panorama_shape H srcRows srcCols dstRows dstCols).1 =
        ⌊(dstRows : ℚ) + (panoramaPads H srcRows srcCols dstRows dstCols).up
          + (panoramaPads H srcRows srcCols dstRows dstCols).down⌋
    ∧ (find_panorama_shape H srcRows srcCols dstRows dstCols).2.1 =
        ⌊(dstCols : ℚ) + (panoramaPads H srcRows srcCols dstRows dstCols).right
          + (panoramaPads H srcRows srcCols dstRows dstCols).left⌋
    ∧ (dstRows : ℤ) +
        (find_panorama_shape H srcRows srcCols dstRows dstCols).2.2.pad_up +
        (find_panorama_shape H srcRows srcCols dstRows dstCols).2.2.pad_down ≤
        (find_panorama_shape H srcRows srcCols dstRows dstCols).1
    ∧ (find_panorama_shape H srcRows srcCols dstRows dstCols).1 ≤
        (dstRows : ℤ) +
        (find_panorama_shape H srcRows srcCols dstRows dstCols).2.2.pad_up +
        (find_panorama_shape H srcRows srcCols dstRows dstCols).2.2.pad_down
          + 1
    ∧ (dstCols : ℤ) +
        (find_panorama_shape H srcRows srcCols dstRows dstCols).2.2.pad_right +
        (find_panorama_shape H srcRows srcCols dstRows dstCols).2.2.pad_left ≤
        (find_panorama_shape H srcRows srcCols dstRows dstCols).2.1
    ∧ (find_panorama_shape H srcRows srcCols dstRows dstCols).2.1 ≤
        (dstCols : ℤ) +
        (find_panorama_shape H srcRows srcCols dstRows dstCols).2.2.pad_right +
        (find_panorama_shape H srcRows srcCols dstRows dstCols).2.2.pad_left
          + 1 := by
  obtain ⟨hu, hd, hr, hl⟩ :=
    panoramaPads_nonneg H srcRows srcCols dstRows dstCols
  have hrows_nonneg : (0 : ℚ) ≤ (dstRows : ℚ) +
      (panoramaPads H srcRows srcCols dstRows dstCols).up +
      (panoramaPads H srcRows srcCols dstRows dstCols).down := by
    have : (0 : ℚ) ≤ (dstRows : ℚ) := by positivity
    linarith
  have hcols_nonneg : (0 : ℚ) ≤ (dstCols : ℚ) +
      (panoramaPads H srcRows srcCols dstRows dstCols).right +
      (panoramaPads H srcRows srcCols dstRows dstCols).left := by
    have : (0 : ℚ) ≤ (dstCols : ℚ) := by positivity
    linarith
  have hrowbounds := floor_add_pads dstRows _ _ hu hd
  have hcolbounds := floor_add_pads dstCols _ _ hr hl
  refine ⟨?_, ?_, ?_, ?_, ?_, ?_, ?_, ?_, ?_, ?_⟩
  · exact pyInt_nonneg hu
  · exact pyInt_nonneg hd
  · exact pyInt_nonneg hr
  · exact pyInt_nonneg hl
  · exact pyInt_of_nonneg hrows_nonneg
  · exact pyInt_of_nonneg hcols_nonneg
  · simp only [find_panorama_shape, pyInt_of_nonneg hu,
      pyInt_of_nonneg hd, pyInt_of_nonneg hrows_nonneg]
    exact hrowbounds.1
  · simp only [find_panorama_shape, pyInt_of_nonneg hu,
      pyInt_of_nonneg hd, pyInt_of_nonneg hrows_nonneg]
    exact hrowbounds.2
  · simp only [find_panorama_shape, pyInt_of_nonneg hr,
      pyInt_of_nonneg hl, pyInt_of_nonneg hcols_nonneg]
    exact hcolbounds.1
  · simp only [find_panorama_shape, pyInt_of_nonneg hr,
      pyInt_of_nonneg hl, pyInt_of_nonneg hcols_nonneg]
    exact hcolbounds.2

/-- The homography `y ↦ 3.3 y − 3.9` (identity on `x`): on a 2x2 source
and 2x2 destination the transformed corner rows are `−0.6` and `2.7`, so
the exact pads are `pad_up = 0.6`, `pad_down = 0.7`. -/
def padsFracH : Mat3 := ⟨1, 0, 0, 0, 33/10, -39/10, 0, 0, 1⟩

/-- Counterexample to claim C5 as stated: `panorama_rows_num =
int(2 + 0.6 + 0.7) = 3`, but the returned integer pads are
`pad_up = pad_down = 0`, so the canvas is NOT `dst_rows + pad_up +
pad_down` computed from the returned `PadStruct`. -/
theorem find_panorama_shape_counterexample :
    (find_panorama_shape padsFracH 2 2 2 2).1 = 3
    ∧ (find_panorama_shape padsFracH 2 2 2 2).2.2.pad_up = 0
    ∧ (find_panorama_shape padsFracH 2 2 2 2).2.2.pad_down = 0
    ∧ (find_panorama_shape padsFracH 2 2 2 2).1 ≠
        2 + (find_panorama_shape padsFracH 2 2 2 2).2.2.pad_up +
          (find_panorama_shape padsFracH 2 2 2 2).2.2.pad_down := by
  have hpads : panoramaPads padsFracH 2 2 2 2 = ⟨3/5, 7/10, 0, 0⟩ := by
    norm_num [panoramaPads, srcCorners, padAccum, mapPoint, applyH,
      padsFracH, abs_of_nonpos, abs_of_nonneg]
  refine ⟨?_, ?_, ?_, ?_⟩ <;>
    norm_num [find_panorama_shape, hpads, pyInt,
      Int.floor_eq_iff, Int.floor_eq_zero_iff, Set.mem_Ico]

/-! ## HomographyComposer: `add_translation_to_backward_homography`

This component is pure real matrix algebra (`np.linalg.norm` of a matrix
is the Frobenius norm, a real square root), so it is embedded over
`Matrix (Fin 3) (Fin 3) ℝ`. -/

/-- Numpy `np.linalg.norm` of a 3x3 matrix: the Frobenius norm. -/
noncomputable def frobNorm (M : Matrix (Fin 3) (Fin 3) ℝ) : ℝ :=
  Real.sqrt (∑ i, ∑ j, (M i j) ^ 2)

/-- The translation matrix `[[1, 0, -pad_left], [0, 1, -pad_up],
[0, 0, 1]]`. -/
def transMatrix (padLeft padUp : ℝ) : Matrix (Fin 3) (Fin 3) ℝ :=
  !![1, 0, -padLeft; 0, 1, -padUp; 0, 0, 1]

/-- Embeds `Solution.add_translation_to_backward_homography`: normalise the
translation matrix by its Frobenius norm, compose with the backward
homography, and re-normalise the product. -/
noncomputable def add_translation_to_backward_homography
    (backwardHomography : Matrix (Fin 3) (Fin 3) ℝ) (padLeft padUp : ℝ) :
    Matrix (Fin 3) (Fin 3) ℝ :=
  let T := transMatrix padLeft padUp
  let normT := (1 / frobNorm T) • T
  let composed := backwardHomography * normT
  (1 / frobNorm composed) • composed

/-- A Frobenius norm is non-negative. -/
theorem frobNorm_nonneg (M : Matrix (Fin 3) (Fin 3) ℝ) : 0 ≤ frobNorm M :=
  Real.sqrt_nonneg _

/-- Claim C6: whenever the two Frobenius norms taken by the source are
nonzero, `add_translation_to_backward_homography` returns a positive
scalar multiple of `Hinv * [[1,0,-pad_left],[0,1,-pad_up],[0,0,1]]`, so
the two normalisation steps leave the projective action of the composed
homography unchanged. -/
theorem add_translation_scalar_multiple
    (Hinv : Matrix (Fin 3) (Fin 3) ℝ) (padLeft padUp : ℝ)
    (hT : frobNorm (transMatrix padLeft padUp) ≠ 0)
    (hC : frobNorm (Hinv * ((1 / frobNorm (transMatrix padLeft padUp)) •
      transMatrix padLeft padUp)) ≠ 0) :
    ∃ c : ℝ, 0 < c ∧
      add_translation_to_backward_homography Hinv padLeft padUp =
        c • (Hinv * transMatrix padLeft padUp) := by
  set T := transMatrix padLeft padUp with hTdef
  set nT := frobNorm T with hnT
  set C := Hinv * ((1 / nT) • T) with hCdef
  have hnTpos : 0 < nT := lt_of_le_of_ne (frobNorm_nonneg T) (Ne.symm hT)
  have hnCpos : 0 < frobNorm C :=
    lt_of_le_of_ne (frobNorm_nonneg C) (Ne.symm hC)
  refine ⟨(1 / frobNorm C) * (1 / nT), ?_, ?_⟩
  · positivity
  · show (1 / frobNorm C) • C = ((1 / frobNorm C) * (1 / nT)) • (Hinv * T)
    rw [hCdef, Matrix.mul_smul, smul_smul]

/-- Witness for C6 at the identity backward homography and zero pads:
`T = 1`, `‖T‖ = sqrt 3 ≠ 0`, and the composed matrix `(1/sqrt 3) • 1`
has Frobenius norm 1 ≠ 0. -/
theorem add_translation_scalar_multiple_witness :
    frobNorm (transMatrix 0 0) ≠ 0
    ∧ frobNorm ((1 : Matrix (Fin 3) (Fin 3) ℝ) *
        ((1 / frobNorm (transMatrix 0 0)) • transMatrix 0 0)) ≠ 0
    ∧ ∃ c : ℝ, 0 < c ∧
        add_translation_to_backward_homography 1 0 0 =
          c • ((1 : Matrix (Fin 3) (Fin 3) ℝ) * transMatrix 0 0) := by
  have hT1 : transMatrix 0 0 = (1 : Matrix (Fin 3) (Fin 3) ℝ) := by
    ext i j
    fin_cases i <;> fin_cases j <;>
      simp [transMatrix, Matrix.one_apply, Matrix.vecHead, Matrix.vecTail]
  have hsum1 : (∑ i, ∑ j, ((1 : Matrix (Fin 3) (Fin 3) ℝ) i j) ^ 2) = 3 := by
    simp [Matrix.one_apply, Fin.sum_univ_three]
  have hfrob1 : frobNorm (1 : Matrix (Fin 3) (Fin 3) ℝ) = Real.sqrt 3 := by
    rw [frobNorm, hsum1]
  have hT : frobNorm (transMatrix 0 0) ≠ 0 := by
    rw [hT1, hfrob1]
    exact Real.sqrt_ne_zero'.mpr (by norm_num)
  have hsqrt3 : (0 : ℝ) < Real.sqrt 3 := Real.sqrt_pos.mpr (by norm_num)
  have hCval : (1 : Matrix (Fin 3) (Fin 3) ℝ) *
      ((1 / frobNorm (transMatrix 0 0)) • transMatrix 0 0) =
      (1 / Real.sqrt 3) • (1 : Matrix (Fin 3) (Fin 3) ℝ) := by
    rw [hT1, hfrob1, one_mul]
  have hsumC : (∑ i, ∑ j,
      (((1 / Real.sqrt 3) • (1 : Matrix (Fin 3) (Fin 3) ℝ)) i j) ^ 2) = 1 := by
    have h3 : (Real.sqrt 3) ^ 2 = 3 := Real.sq_sqrt (by norm_num)
    simp [Matrix.smul_apply, Matrix.one_apply, Fin.sum_univ_three,
      div_pow, h3]
  have hC : frobNorm ((1 : Matrix (Fin 3) (Fin 3) ℝ) *
      ((1 / frobNorm (transMatrix 0 0)) • transMatrix 0 0)) ≠ 0 := by
    rw [hCval, frobNorm, hsumC]
    simp
  exact ⟨hT, hC, add_translation_scalar_multiple 1 0 0 hT hC⟩

/-! ## BackwardWarper: `compute_backward_mapping`

`scipy.interpolate.griddata(..., method='cubic', fill_value=0)` cannot be
reproduced exactly; per its documented contract it evaluates a
(Clough-Tocher) interpolant at query points inside the convex hull of the
sample points and returns `fill_value` outside.  The sample points here
are the full integer pixel lattice `{0..H-1} x {0..W-1}` of the source
image, whose convex hull is the axis-aligned rectangle `[0, H-1] x
[0, W-1]`; the in-hull interpolant is an arbitrary function parameter
`interp`.  The interpolated values are then cast with `.astype(int)`
(truncation toward zero) and clipped to `[0, 255]`. -/

/-- The source-space coordinate (row, col) that destination pixel
`(r, c)` pulls from: the perspective-divided image of `[c, r, 1]` under
the backward homography. -/
def backwardMapCoord (Hb : Mat3) (r c : ℕ) : ℚ × ℚ :=
  let v := applyH Hb (c : ℚ) (r : ℚ)
  (v.y / v.z, v.x / v.z)

/-- Membership in the convex hull of the source sample lattice: the
rectangle `[0, src_rows - 1] x [0, src_cols - 1]`. -/
def inHull (srcRows srcCols : ℕ) (p : ℚ × ℚ) : Bool :=
  decide (0 ≤ p.1 ∧ p.1 ≤ (srcRows : ℚ) - 1 ∧
    0 ≤ p.2 ∧ p.2 ≤ (srcCols : ℚ) - 1)

/-- Scipy `griddata` with `fill_value=0`, modelled on its documented contract:
the interpolant inside the hull, the fill value outside. -/
def griddataModel (interp : ℚ × ℚ → RGB) (srcRows srcCols : ℕ)
    (p : ℚ × ℚ) : RGB :=
  if inHull srcRows srcCols p then interp p else ⟨0, 0, 0⟩

/-- Integer color triple of one output pixel. -/
structure RGBInt where
  r : ℤ
  g : ℤ
  b : ℤ
  deriving DecidableEq

/-- Embeds `Solution.compute_backward_mapping`, per destination pixel: look up
the interpolated color of the pulled source coordinate, truncate each
channel to an integer (`astype(int)`), and clip to `[0, 255]`
(`np.clip(..., 0, 255).astype(np.uint8)`). -/
def compute_backward_mapping (Hb : Mat3) (interp : ℚ × ℚ → RGB)
    (srcRows srcCols : ℕ) (r c : ℕ) : RGBInt :=
  let col := griddataModel interp srcRows srcCols (backwardMapCoord Hb r c)
  ⟨clip255 (pyInt col.r), clip255 (pyInt col.g), clip255 (pyInt col.b)⟩

/-- Claim C9: every channel value returned by `compute_backward_mapping`
is an integer in `[0, 255]`, and a destination pixel whose pulled source
coordinate falls outside the convex hull of the source samples receives
the fill value 0 in all channels. -/
theorem compute_backward_mapping_range (Hb : Mat3)
    (interp : ℚ × ℚ → RGB) (srcRows srcCols : ℕ) (r c : ℕ) :
    (0 ≤ (compute_backward_mapping Hb interp srcRows srcCols r c).r
      ∧ (compute_backward_mapping Hb interp srcRows srcCols r c).r ≤ 255
      ∧ 0 ≤ (compute_backward_mapping Hb interp srcRows srcCols r c).g
      ∧ (compute_backward_mapping Hb interp srcRows srcCols r c).g ≤ 255
      ∧ 0 ≤ (compute_backward_mapping Hb interp srcRows srcCols r c).b
      ∧ (compute_backward_mapping Hb interp srcRows srcCols r c).b ≤ 255)
    ∧ (inHull srcRows srcCols (backwardMapCoord Hb r c) = false →
        compute_backward_mapping Hb interp srcRows srcCols r c =
          ⟨0, 0, 0⟩) := by
  have hclip : ∀ z : ℤ, 0 ≤ clip255 z ∧ clip255 z ≤ 255 := by
    intro z
    unfold clip255
    omega
  constructor
  · exact ⟨(hclip _).1, (hclip _).2, (hclip _).1, (hclip _).2,
      (hclip _).1, (hclip _).2⟩
  · intro hout
    simp [compute_backward_mapping, griddataModel, hout, clip255, pyInt]

/-- Witness for C9: a backward homography translating by 1000 pixels
pulls destination pixel `(0, 0)` from source coordinate `(1000, 1000)`,
far outside the hull of a 2x2 source; the output pixel is `(0, 0, 0)`
and in range. -/
theorem compute_backward_mapping_range_witness :
    inHull 2 2 (backwardMapCoord ⟨1, 0, 1000, 0, 1, 1000, 0, 0, 1⟩ 0 0) =
        false
    ∧ compute_backward_mapping ⟨1, 0, 1000, 0, 1, 1000, 0, 0, 1⟩
        (fun _ => ⟨7, 8, 9⟩) 2 2 0 0 = ⟨0, 0, 0⟩
    ∧ 0 ≤ (compute_backward_mapping ⟨1, 0, 1000, 0, 1, 1000, 0, 0, 1⟩
        (fun _ => ⟨7, 8, 9⟩) 2 2 0 0).r := by
  have hout : inHull 2 2
      (backwardMapCoord ⟨1, 0, 1000, 0, 1, 1000, 0, 0, 1⟩ 0 0) = false := by
    norm_num [inHull, backwardMapCoord, applyH]
  have h := compute_backward_mapping_range ⟨1, 0, 1000, 0, 1, 1000, 0, 0, 1⟩
    (fun _ => ⟨7, 8, 9⟩) 2 2 0 0
  exact ⟨hout, h.2 hout, h.1.1⟩

/-! ## PanoramaAssembler: the compositing steps of `panorama`

Steps (5)-(7) of `Solution.panorama` (lines 509-519): allocate a
zero-filled canvas, paste the destination image at offset
`(pad_up, pad_left)`, and merge with the backward-warped source by
`np.where(panorama_empty.round() == 0, backward_image, panorama_empty)`
(element-wise over rows, columns AND channels), before the final clip.
The upstream inputs (the backward image and the pads) are parameters. -/

/-- The canvas holding the pasted destination image
(`panorama_empty[pad_up : pad_up+H, pad_left : pad_left+W, :] =
dst_image`), zero elsewhere. -/
def pasteCanvas (dst : ℕ → ℕ → RGB) (dstRows dstCols padUp padLeft : ℕ) :
    ℕ → ℕ → RGB := fun r c =>
  if padUp ≤ r ∧ r < padUp + dstRows ∧ padLeft ≤ c ∧ c < padLeft + dstCols
  then dst (r - padUp) (c - padLeft)
  else ⟨0, 0, 0⟩

/-- Element-wise merge of one channel pair:
`np.where(canvas.round() == 0, backward, canvas)` at a single scalar
cell. -/
def mergeChannel (canvasVal backwardVal : ℚ) : ℚ :=
  if roundHE canvasVal = 0 then backwardVal else canvasVal

/-- The pre-clip composited panorama
(`np.where(panorama_empty.round() == 0, backward_image, panorama_empty)`):
the `np.where` is applied to the full `(rows, cols, 3)` arrays, i.e.
independently per element. -/
def panoramaPreClip (dst backward : ℕ → ℕ → RGB)
    (dstRows dstCols padUp padLeft : ℕ) : ℕ → ℕ → RGB := fun r c =>
  let canvas := pasteCanvas dst dstRows dstCols padUp padLeft r c
  let bw := backward r c
  ⟨mergeChannel canvas.r bw.r, mergeChannel canvas.g bw.g,
   mergeChannel canvas.b bw.b⟩

/-- Claim C10: the merge of `panorama` is decided independently for each
color channel, not per pixel: at every canvas element `(r, c, channel)`
the pre-clip result is the backward-warped value when the pasted
destination value at that same channel rounds to zero and the pasted
destination value otherwise; consequently a destination pixel with a
zero green channel but nonzero red/blue (here `(255, 0, 255)` against a
backward pixel `(7, 8, 9)`) ends up mixing channels of the two images:
`(255, 8, 255)`. -/
theorem panorama_merge_per_channel (dst backward : ℕ → ℕ → RGB)
    (dstRows dstCols padUp padLeft r c : ℕ) :
    ((panoramaPreClip dst backward dstRows dstCols padUp padLeft r c).r =
        (if roundHE (pasteCanvas dst dstRows dstCols padUp padLeft r c).r = 0
         then (backward r c).r
         else (pasteCanvas dst dstRows dstCols padUp padLeft r c).r)
      ∧ (panoramaPreClip dst backward dstRows dstCols padUp padLeft r c).g =
        (if roundHE (pasteCanvas dst dstRows dstCols padUp padLeft r c).g = 0
         then (backward r c).g
         else (pasteCanvas dst dstRows dstCols padUp padLeft r c).g)
      ∧ (panoramaPreClip dst backward dstRows dstCols padUp padLeft r c).b =
        (if roundHE (pasteCanvas dst dstRows dstCols padUp padLeft r c).b = 0
         then (backward r c).b
         else (pasteCanvas dst dstRows dstCols padUp padLeft r c).b))
    ∧ panoramaPreClip (fun _ _ => ⟨255, 0, 255⟩) (fun _ _ => ⟨7, 8, 9⟩)
        1 1 0 0 0 0 = ⟨255, 8, 255⟩ := by
  constructor
  · exact ⟨rfl, rfl, rfl⟩
  · have h255 : roundHE (255 : ℚ) = 255 := by
      norm_num [roundHE]
    have h0 : roundHE (0 : ℚ) = 0 := by
      norm_num [roundHE]
    simp [panoramaPreClip, pasteCanvas, mergeChannel, h255, h0]
